import Mathlib

/-!
Verification of the `news-globe` location service (`src/services/location`).

This file shallowly embeds the Rust source (`build.rs`, `main.rs`) into Lean:

* machine integers (`u8`, `u32`, `u64`) are `Nat` with explicit `% 2^w`
  truncation exactly where the Rust code can overflow or truncate;
* byte buffers (`&[u8]`, `Vec<u8>`) are `List Nat` whose elements are bytes;
* Rust `String` / `&str` values are `List Char` (Rust `char` and Lean `Char`
  are both Unicode scalar values);
* `f32` fields are represented by their 32-bit IEEE-754 bit patterns as `Nat`:
  the codec in the source only ever moves those 4 bytes, it never computes
  with them, so the byte-level embedding is exact;
* fallible code (`anyhow::Result`) becomes `Except Unit`;
* the bounded loops of the source (`take(5)` in `read_var_u32`, the postings
  decode loop, the binary search) become structural recursions whose fuel
  arguments are chosen to be provably adequate, so every definition is
  executable by the kernel.

Definitions keep the names of the Rust functions they embed.
-/

namespace NewsGlobe

/-! ## Varint codec

`write_var_u32` (build.rs:518-524) and `read_var_u32` (main.rs:337-349).
-/

/-- Loop body of `write_var_u32` (build.rs:518-524):
`while v >= 0x80 { push((v & 0x7F) | 0x80); v >>= 7 } push(v)`.
The fuel bound of 5 is exact for `u32` inputs (`v < 2^32` needs at most five
base-128 digits), so the loop never reaches the fuel-exhausted base case on
inputs the Rust program can pass. -/
def writeVarAux : Nat → Nat → List Nat
  | 0, v => [v % 128]
  | fuel + 1, v => if v < 128 then [v] else (v % 128 + 128) :: writeVarAux fuel (v / 128)

/-- `write_var_u32` (build.rs:518-524), on a `u32` value `v < 2^32`. -/
def write_var_u32 (v : Nat) : List Nat :=
  writeVarAux 5 v

/-- Loop body of `read_var_u32` (main.rs:337-349).  `i` counts the bytes
consumed so far; the source iterates `buf.iter().enumerate().take(5)`, so an
index reaching 5 falls out of the loop into the `Err` case.  For a byte `b`,
`b & 0x7F` is `b % 128` and `(b & 0x80) == 0` is `b / 128 % 2 == 0`; the
accumulator update `v |= chunk << shift` is a `u32` operation, hence the
`% 2^32` truncation. -/
def readVarAux : List Nat → Nat → Nat → Nat → Except Unit (Nat × Nat)
  | [], _, _, _ => .error ()
  | b :: rest, i, shift, v =>
    if 5 ≤ i then .error ()
    else
      let v' := (v ||| ((b % 128) <<< shift)) % 2 ^ 32
      if b / 128 % 2 = 0 then .ok (v', i + 1)
      else readVarAux rest (i + 1) (shift + 7) v'

/-- `read_var_u32` (main.rs:337-349): little-endian base 128, at most five
bytes, returns the decoded value and the number of bytes consumed. -/
def read_var_u32 (buf : List Nat) : Except Unit (Nat × Nat) :=
  readVarAux buf 0 0 0

/-- `encode_delta_varints` (build.rs:507-516): each id is written as the
wrapping `u32` difference from its predecessor (initial predecessor 0),
encoded as a varint.  `id.wrapping_sub(prev)` is `(id + 2^32 - prev) % 2^32`
for `u32` operands. -/
def encodeDeltaAux : List Nat → Nat → List Nat
  | [], _ => []
  | id :: rest, prev => write_var_u32 ((id + 2 ^ 32 - prev) % 2 ^ 32) ++ encodeDeltaAux rest id

/-- `encode_delta_varints` (build.rs:507-516). -/
def encode_delta_varints (ids : List Nat) : List Nat :=
  encodeDeltaAux ids 0

/-- Loop body of `decode_delta_varints` (main.rs:321-335): repeatedly read a
varint, add it to the running `u32` prefix sum (`cur.wrapping_add(v)`), stop
silently at the end of the buffer or on a decode error.  Each successful
`read_var_u32` consumes at least one byte, so fuel `bytes.length` is exactly
adequate for the source's unbounded `while i < bytes.len()` loop. -/
def decodeDeltaAux : Nat → List Nat → Nat → List Nat
  | 0, _, _ => []
  | fuel + 1, bytes, cur =>
    match read_var_u32 bytes with
    | .error _ => []
    | .ok (v, n) =>
      let cur' := (cur + v) % 2 ^ 32
      cur' :: decodeDeltaAux fuel (bytes.drop n) cur'

/-- `decode_delta_varints` (main.rs:321-335). -/
def decode_delta_varints (bytes : List Nat) : List Nat :=
  decodeDeltaAux bytes.length bytes 0

/-! ### Varint lemmas -/

/-- Bit-disjoint `or` is addition: the accumulator of `read_var_u32` only has
bits below `shift`, the incoming chunk only bits at or above it. -/
theorem lor_shiftLeft_eq_add {v : Nat} (c s : Nat) (hv : v < 2 ^ s) :
    v ||| (c <<< s) = 2 ^ s * c + v := by
  apply Nat.eq_of_testBit_eq
  intro i
  rw [Nat.testBit_lor, Nat.testBit_shiftLeft, Nat.testBit_mul_pow_two_add c hv i]
  by_cases h : i < s
  · have : ¬ i ≥ s := by omega
    simp [h, this]
  · have hge : i ≥ s := by omega
    have hvf : v.testBit i = false :=
      Nat.testBit_lt_two_pow (lt_of_lt_of_le hv (Nat.pow_le_pow_right (by omega) hge))
    simp [h, hge, hvf]

theorem writeVarAux_ne_nil (fuel v : Nat) : writeVarAux fuel v ≠ [] := by
  cases fuel <;> simp [writeVarAux] <;> split <;> simp

theorem writeVarAux_length_le : ∀ fuel v : Nat, (writeVarAux fuel v).length ≤ fuel + 1
  | 0, _ => by simp [writeVarAux]
  | fuel + 1, v => by
    simp only [writeVarAux]
    split
    · simp
    · simpa using Nat.succ_le_succ (writeVarAux_length_le fuel (v / 128))

/-- Core round-trip invariant: reading a canonically written varint (with any
suffix appended) recovers the value and the exact byte count.  The counter
`i`, the shift, the accumulator bound and the value bound walk in lockstep. -/
theorem readVarAux_writeVarAux (fuel : Nat) :
    ∀ (v i acc : Nat) (extra : List Nat),
      i + fuel = 5 → 1 ≤ fuel → acc < 2 ^ (7 * i) → v < 2 ^ (32 - 7 * i) →
      readVarAux (writeVarAux fuel v ++ extra) i (7 * i) acc =
        .ok (acc + v * 2 ^ (7 * i), i + (writeVarAux fuel v).length) := by
  induction fuel with
  | zero => omega
  | succ fuel ih =>
    intro v i acc extra hi _ hacc hv
    have hi4 : i ≤ 4 := by omega
    have hnot5 : ¬ 5 ≤ i := by omega
    by_cases hsmall : v < 128
    · have hcont : v / 128 % 2 = 0 := by omega
      have hmod : v % 128 = v := Nat.mod_eq_of_lt hsmall
      have hor := lor_shiftLeft_eq_add (v % 128) (7 * i) hacc
      rw [hmod] at hor
      have hfit : 2 ^ (7 * i) * v + acc < 2 ^ 32 := by
        have h3 : v + 1 ≤ 2 ^ (32 - 7 * i) := hv
        have h4 : 2 ^ (7 * i) * (v + 1) ≤ 2 ^ (7 * i) * 2 ^ (32 - 7 * i) :=
          Nat.mul_le_mul_left _ h3
        have h5 : 2 ^ (7 * i) * 2 ^ (32 - 7 * i) = 2 ^ 32 := by
          rw [← pow_add]
          congr 1
          omega
        have h6 : 2 ^ (7 * i) * (v + 1) = 2 ^ (7 * i) * v + 2 ^ (7 * i) := by ring
        omega
      simp only [writeVarAux, if_pos hsmall, List.cons_append, List.nil_append,
        readVarAux, if_neg hnot5]
      rw [if_pos hcont, hmod, hor, Nat.mod_eq_of_lt hfit]
      simp only [List.length_cons, List.length_nil, Except.ok.injEq, Prod.mk.injEq]
      constructor
      · ring
      · trivial
    · have hv128 : 128 ≤ v := by omega
      -- at least two digits remain here, so i ≤ 3
      have hshift : i ≤ 3 := by
        by_contra hgt
        have hi4' : i = 4 := by omega
        rw [hi4'] at hv
        norm_num at hv
        omega
      have hcont : (v % 128 + 128) / 128 % 2 = 1 := by omega
      have hor := lor_shiftLeft_eq_add ((v % 128 + 128) % 128) (7 * i) hacc
      have hmm : (v % 128 + 128) % 128 = v % 128 := by omega
      rw [hmm] at hor
      have hfit : 2 ^ (7 * i) * (v % 128) + acc < 2 ^ (7 * (i + 1)) := by
        have h1 : v % 128 + 1 ≤ 128 := by omega
        have h3 : 2 ^ (7 * i) * (v % 128 + 1) ≤ 2 ^ (7 * i) * 128 := Nat.mul_le_mul_left _ h1
        have h4 : 2 ^ (7 * i) * 128 = 2 ^ (7 * (i + 1)) := by
          rw [show 7 * (i + 1) = 7 * i + 7 by ring, pow_add]
          norm_num
        have h6 : 2 ^ (7 * i) * (v % 128 + 1) = 2 ^ (7 * i) * (v % 128) + 2 ^ (7 * i) := by
          ring
        omega
      have hfit32 : 2 ^ (7 * i) * (v % 128) + acc < 2 ^ 32 := by
        have : (2 : Nat) ^ (7 * (i + 1)) ≤ 2 ^ 32 := Nat.pow_le_pow_right (by omega) (by omega)
        omega
      have hdiv : v / 128 < 2 ^ (32 - 7 * (i + 1)) := by
        have hbound : v < 2 ^ (32 - 7 * i) := hv
        have h32 : 32 - 7 * i = (32 - 7 * (i + 1)) + 7 := by omega
        rw [h32, pow_add] at hbound
        refine (Nat.div_lt_iff_lt_mul (by omega)).2 ?_
        calc v < 2 ^ (32 - 7 * (i + 1)) * 2 ^ 7 := hbound
        _ = 2 ^ (32 - 7 * (i + 1)) * 128 := by norm_num
      have hrec := ih (v / 128) (i + 1) (2 ^ (7 * i) * (v % 128) + acc) extra
        (by omega) (by omega) (by rwa [show 7 * (i + 1) = 7 * i + 7 by ring] at hfit ⊢) hdiv
      rw [show 7 * (i + 1) = 7 * i + 7 by ring] at hrec
      have hval : 2 ^ (7 * i) * (v % 128) + acc + v / 128 * 2 ^ (7 * i + 7) =
          acc + v * 2 ^ (7 * i) := by
        have hdm := Nat.div_add_mod v 128
        rw [pow_add]
        nlinarith [Nat.div_add_mod v 128]
      rw [hval] at hrec
      simp only [writeVarAux, if_neg hsmall, List.cons_append, readVarAux,
        if_neg hnot5]
      rw [if_neg (by omega : ¬ (v % 128 + 128) / 128 % 2 = 0), hmm, hor,
        Nat.mod_eq_of_lt hfit32, hrec]
      simp only [List.length_cons, Except.ok.injEq, Prod.mk.injEq]
      exact ⟨trivial, by omega⟩

/-- Round-trip with an arbitrary suffix, stated at the top level. -/
theorem read_write_var_u32 (v : Nat) (hv : v < 2 ^ 32) (extra : List Nat) :
    read_var_u32 (write_var_u32 v ++ extra) = .ok (v, (write_var_u32 v).length) := by
  have h := readVarAux_writeVarAux 5 v 0 0 extra (by omega) (by omega) (by norm_num)
    (by simpa using hv)
  simpa [read_var_u32, write_var_u32] using h

/-- Decoding an encoded delta sequence, generalized over the running
predecessor.  `prev` is at most the head of `xs` (the first delta written by
the encoder is `xs[0] - prev`), the tail deltas are strictly positive. -/
theorem decodeDeltaAux_encodeDeltaAux :
    ∀ (xs : List Nat) (prev fuel : Nat),
      (∀ x ∈ xs, x < 2 ^ 32) → prev < 2 ^ 32 →
      (∀ y ∈ xs.head?, prev ≤ y) → List.Chain' (· < ·) xs →
      (encodeDeltaAux xs prev).length ≤ fuel →
      decodeDeltaAux fuel (encodeDeltaAux xs prev) prev = xs := by
  intro xs
  induction xs with
  | nil =>
    intro prev fuel _ _ _ _ _
    cases fuel <;> simp [encodeDeltaAux, decodeDeltaAux, read_var_u32, readVarAux]
  | cons x rest ih =>
    intro prev fuel hb hp hle hch hfuel
    have hx32 : x < 2 ^ 32 := hb x (by simp)
    have hpx : prev ≤ x := hle x (by simp)
    have h232 : (2 : Nat) ^ 32 = 4294967296 := by norm_num
    have hd : (x + 2 ^ 32 - prev) % 2 ^ 32 = x - prev := by
      rw [h232] at *
      omega
    have hdlt : x - prev < 2 ^ 32 := by omega
    simp only [encodeDeltaAux, hd] at hfuel ⊢
    have hw := writeVarAux_ne_nil 5 (x - prev)
    have hwlen : 1 ≤ (write_var_u32 (x - prev)).length := by
      cases hcons : write_var_u32 (x - prev) with
      | nil => exact absurd hcons hw
      | cons a l => simp
    rw [List.length_append] at hfuel
    cases fuel with
    | zero => omega
    | succ fuel =>
      have hcur : (prev + (x - prev)) % 2 ^ 32 = x := by
        rw [h232] at *
        omega
      have hdrop : (write_var_u32 (x - prev) ++ encodeDeltaAux rest x).drop
          (write_var_u32 (x - prev)).length = encodeDeltaAux rest x := by
        simp
      simp only [decodeDeltaAux, read_write_var_u32 (x - prev) hdlt, hcur, hdrop]
      have hch' := List.chain'_cons'.1 hch
      have ihr := ih x fuel (fun y hy => hb y (by simp [hy])) hx32
        (fun y hy => Nat.le_of_lt (hch'.1 y hy)) hch'.2 (by omega)
      rw [ihr]

/-- Round trip of the whole delta + varint pipeline for strictly ascending
`u32` sequences. -/
theorem decode_encode_delta (xs : List Nat) (hch : List.Chain' (· < ·) xs)
    (hb : ∀ x ∈ xs, x < 2 ^ 32) :
    decode_delta_varints (encode_delta_varints xs) = xs := by
  exact decodeDeltaAux_encodeDeltaAux xs 0 (encodeDeltaAux xs 0).length hb (by norm_num)
    (fun y _ => Nat.zero_le y) hch le_rfl

/-- Error characterization of the `read_var_u32` loop: starting at byte index
`i`, the read fails exactly when every remaining byte inspected by
`take(5)` - that is, the first `5 - i` bytes - has its continuation bit set. -/
theorem readVarAux_error_iff :
    ∀ (buf : List Nat) (i shift acc : Nat), (∀ b ∈ buf, b < 256) →
      (readVarAux buf i shift acc = .error () ↔ ∀ b ∈ buf.take (5 - i), 128 ≤ b) := by
  intro buf
  induction buf with
  | nil => intro i shift acc _; simp [readVarAux]
  | cons b rest ih =>
    intro i shift acc hbytes
    have hb256 : b < 256 := hbytes b (by simp)
    by_cases hi : 5 ≤ i
    · have : 5 - i = 0 := by omega
      simp [readVarAux, hi, this]
    · have htake : 5 - i = (5 - (i + 1)) + 1 := by omega
      rw [readVarAux, if_neg hi]
      by_cases hcont : b / 128 % 2 = 0
      · have hblt : b < 128 := by omega
        simp only [if_pos hcont, htake, List.take_succ_cons]
        constructor
        · intro h
          cases h
        · intro h
          exact absurd (h b (by simp)) (by omega)
      · have hbge : 128 ≤ b := by omega
        simp only [if_neg hcont, htake, List.take_succ_cons]
        rw [ih (i + 1) (shift + 7) _ (fun y hy => hbytes y (by simp [hy]))]
        constructor
        · intro h y hy
          rcases List.mem_cons.1 hy with rfl | hy'
          · exact hbge
          · exact h y hy'
        · intro h y hy
          exact h y (List.mem_cons_of_mem b hy)

/-! ## Claim theorems for the varint codec -/

/-- C7: for every `u32` value `v`, decoding the bytes produced by
`write_var_u32` returns exactly `v` and consumes exactly the bytes written:
`read_var_u32(write_var_u32(v)) == (v, length of encoding)`. -/
theorem var_u32_roundtrip (v : Nat) (hv : v < 2 ^ 32) :
    read_var_u32 (write_var_u32 v) = .ok (v, (write_var_u32 v).length) := by
  have h := read_write_var_u32 v hv []
  rwa [List.append_nil] at h

/-- Witness for `var_u32_roundtrip` at `v = 300` (a two-byte varint). -/
theorem var_u32_roundtrip_witness :
    300 < 2 ^ 32 ∧ read_var_u32 (write_var_u32 300) = .ok (300, (write_var_u32 300).length) :=
  ⟨by norm_num, var_u32_roundtrip 300 (by norm_num)⟩

/-- C8: `read_var_u32` fails exactly when the buffer ends before a byte with a
clear continuation bit is found, or when the first five bytes all have the
continuation bit set (both cases are: every byte among the first
`min 5 (buf.length)` has bit 7 set); in all other cases it succeeds. -/
theorem read_var_u32_error_iff (buf : List Nat) (hbuf : ∀ b ∈ buf, b < 256) :
    read_var_u32 buf = .error () ↔ ∀ b ∈ buf.take 5, 128 ≤ b := by
  simpa [read_var_u32] using readVarAux_error_iff buf 0 0 0 hbuf

/-- Witness for `read_var_u32_error_iff` on a buffer that ends mid-varint
(`[0x80, 0x80]`, all continuation bits set, fewer than five bytes). -/
theorem read_var_u32_error_iff_witness :
    (∀ b ∈ [128, 128], b < 256) ∧
      (read_var_u32 [128, 128] = .error () ↔ ∀ b ∈ [128, 128].take 5, 128 ≤ b) :=
  ⟨by decide, read_var_u32_error_iff [128, 128] (by decide)⟩

/-- C10: 5-byte buffers whose fifth byte carries value bits above bit 31 are
accepted by `read_var_u32`, with those bits silently discarded (`u32`
truncation of `chunk << 28`): `[0x80,0x80,0x80,0x80,0x1F]` decodes to
`0xF0000000` exactly like `[0x80,0x80,0x80,0x80,0x0F]` does, so decoding is
not injective, and the former buffer is not `write_var_u32` of any `u32`. -/
theorem read_var_u32_noncanonical :
    read_var_u32 [128, 128, 128, 128, 31] = .ok (4026531840, 5) ∧
    read_var_u32 [128, 128, 128, 128, 15] = .ok (4026531840, 5) ∧
    ∀ v : Fin (2 ^ 32), write_var_u32 v.val ≠ [128, 128, 128, 128, 31] := by
  refine ⟨by rfl, by rfl, ?_⟩
  intro v heq
  have h := read_write_var_u32 v.val v.isLt []
  rw [List.append_nil, heq] at h
  have h31 : read_var_u32 [128, 128, 128, 128, 31] = .ok (4026531840, 5) := by rfl
  rw [h31] at h
  have hv : v.val = 4026531840 := by
    have := Except.ok.inj h
    exact (Prod.mk.injEq _ _ _ _ ▸ this).1.symm
  rw [hv] at heq
  have hw15 : write_var_u32 4026531840 = [128, 128, 128, 128, 15] := by rfl
  rw [hw15] at heq
  exact absurd heq (by decide)

/-- C3: for every strictly-ascending non-empty list `xs` of `u32` values,
`decode_delta_varints (encode_delta_varints xs) = xs`. -/
theorem delta_varint_roundtrip (xs : List Nat) (hne : xs ≠ [])
    (hch : List.Chain' (· < ·) xs) (hb : ∀ x ∈ xs, x < 2 ^ 32) :
    decode_delta_varints (encode_delta_varints xs) = xs :=
  decode_encode_delta xs hch hb

/-- Witness for `delta_varint_roundtrip` on `[0, 3, 200]`. -/
theorem delta_varint_roundtrip_witness :
    ([0, 3, 200] : List Nat) ≠ [] ∧
      decode_delta_varints (encode_delta_varints [0, 3, 200]) = [0, 3, 200] :=
  ⟨by decide, delta_varint_roundtrip [0, 3, 200] (by decide)
    (by norm_num [List.chain'_cons]) (by decide)⟩

/-! ## UTF-8

Rust `String` values are sequences of Unicode scalar values; Lean `Char` is
the same type.  `write_lp_str` (build.rs:497-501) persists `s.as_bytes()`,
i.e. the UTF-8 encoding; `read_lp_str_cur` (main.rs:301-315) re-validates
with `std::str::from_utf8`.  We embed the encoder and the validating decoder
at the byte level (the table below is the standard UTF-8 well-formedness
table: no overlong forms, no surrogates, nothing above `U+10FFFF`, which is
exactly what `from_utf8` accepts). -/

/-- UTF-8 encoding of one Unicode scalar value (Rust `char::encode_utf8`). -/
def utf8EncodeChar (c : Char) : List Nat :=
  let v := c.toNat
  if v < 128 then [v]
  else if v < 2048 then [192 + v / 64, 128 + v % 64]
  else if v < 65536 then [224 + v / 4096, 128 + v / 64 % 64, 128 + v % 64]
  else [240 + v / 262144, 128 + v / 4096 % 64, 128 + v / 64 % 64, 128 + v % 64]

/-- UTF-8 encoding of a string (Rust `str::as_bytes`). -/
def utf8Encode : List Char → List Nat
  | [] => []
  | c :: s => utf8EncodeChar c ++ utf8Encode s

/-- One step of UTF-8 validation: given the lead byte and the next three
bytes (an absent byte is passed as the sentinel `256`, which fails every
continuation-byte range check, exactly as a truncated buffer fails
`from_utf8`), return the decoded scalar value and the number of continuation
bytes, or `none` if the sequence is ill-formed (overlong form, surrogate,
value above `U+10FFFF`, bad continuation byte, lead `0x80..0xC1` or
`0xF5..0xFF`). -/
def utf8Lead (b0 b1 b2 b3 : Nat) : Option (Nat × Nat) :=
  if b0 < 128 then some (b0, 0)
  else if b0 < 194 then none
  else if b0 < 224 then
    if 128 ≤ b1 ∧ b1 < 192 then some ((b0 - 192) * 64 + (b1 - 128), 1) else none
  else if b0 < 240 then
    if (if b0 = 224 then 160 else 128) ≤ b1 ∧ b1 < (if b0 = 237 then 160 else 192) ∧
        128 ≤ b2 ∧ b2 < 192 then
      some ((b0 - 224) * 4096 + (b1 - 128) * 64 + (b2 - 128), 2)
    else none
  else if b0 < 245 then
    if (if b0 = 240 then 144 else 128) ≤ b1 ∧ b1 < (if b0 = 244 then 144 else 192) ∧
        128 ≤ b2 ∧ b2 < 192 ∧ 128 ≤ b3 ∧ b3 < 192 then
      some ((b0 - 240) * 262144 + (b1 - 128) * 4096 + (b2 - 128) * 64 + (b3 - 128), 3)
    else none
  else none

/-- Fuel-driven decoding loop.  Each step consumes at least one byte, so fuel
equal to the buffer length (as used by `utf8Decode`) never reaches the
fuel-exhausted case. -/
def utf8DecodeAux : Nat → List Nat → Option (List Char)
  | _, [] => some []
  | 0, _ :: _ => none
  | fuel + 1, b0 :: rest =>
    match utf8Lead b0 (rest.headD 256) ((rest.drop 1).headD 256) ((rest.drop 2).headD 256) with
    | none => none
    | some (v, k) => (utf8DecodeAux fuel (rest.drop k)).map (fun cs => Char.ofNat v :: cs)

/-- Validating UTF-8 decoder: `std::str::from_utf8` followed by `chars()`.
Returns `none` exactly on the byte sequences `from_utf8` rejects. -/
def utf8Decode (bytes : List Nat) : Option (List Char) :=
  utf8DecodeAux bytes.length bytes

/-- A `Char`'s scalar value avoids the surrogate range and is below
`0x110000`. -/
theorem char_toNat_ranges (c : Char) :
    c.toNat < 55296 ∨ (57343 < c.toNat ∧ c.toNat < 1114112) := by
  rcases c.valid with h | ⟨h1, h2⟩
  · exact Or.inl (UInt32.toNat_lt_of_lt (by norm_num) h)
  · exact Or.inr ⟨UInt32.lt_toNat_of_lt (by norm_num) h1,
      UInt32.toNat_lt_of_lt (by norm_num) h2⟩

theorem utf8Lead_one (b0 b1 b2 b3 : Nat) (h : b0 < 128) :
    utf8Lead b0 b1 b2 b3 = some (b0, 0) := by
  simp [utf8Lead, h]

theorem utf8Lead_two (b0 b1 b2 b3 : Nat) (ha : 194 ≤ b0) (hb : b0 < 224)
    (hc : 128 ≤ b1 ∧ b1 < 192) :
    utf8Lead b0 b1 b2 b3 = some ((b0 - 192) * 64 + (b1 - 128), 1) := by
  simp only [utf8Lead]
  rw [if_neg (by omega), if_neg (by omega), if_pos (by omega), if_pos hc]

theorem utf8Lead_three (b0 b1 b2 b3 : Nat) (ha : 224 ≤ b0) (hb : b0 < 240)
    (hc : (if b0 = 224 then 160 else 128) ≤ b1 ∧ b1 < (if b0 = 237 then 160 else 192) ∧
      128 ≤ b2 ∧ b2 < 192) :
    utf8Lead b0 b1 b2 b3 = some ((b0 - 224) * 4096 + (b1 - 128) * 64 + (b2 - 128), 2) := by
  simp only [utf8Lead]
  rw [if_neg (by omega), if_neg (by omega), if_neg (by omega), if_pos (by omega), if_pos hc]

theorem utf8Lead_four (b0 b1 b2 b3 : Nat) (ha : 240 ≤ b0) (hb : b0 < 245)
    (hc : (if b0 = 240 then 144 else 128) ≤ b1 ∧ b1 < (if b0 = 244 then 144 else 192) ∧
      128 ≤ b2 ∧ b2 < 192 ∧ 128 ≤ b3 ∧ b3 < 192) :
    utf8Lead b0 b1 b2 b3 =
      some ((b0 - 240) * 262144 + (b1 - 128) * 4096 + (b2 - 128) * 64 + (b3 - 128), 3) := by
  simp only [utf8Lead]
  rw [if_neg (by omega), if_neg (by omega), if_neg (by omega), if_neg (by omega),
    if_pos (by omega), if_pos hc]

/-- Decoding one encoded character at the front of a buffer peels it off and
spends one unit of fuel. -/
theorem utf8DecodeAux_encodeChar (c : Char) (rest : List Nat) (fuel : Nat) :
    utf8DecodeAux (fuel + 1) (utf8EncodeChar c ++ rest) =
      (utf8DecodeAux fuel rest).map (fun cs => c :: cs) := by
  have hv := char_toNat_ranges c
  have hofn : Char.ofNat c.toNat = c := Char.ofNat_toNat c
  by_cases h1 : c.toNat < 128
  · simp only [utf8EncodeChar, if_pos h1, List.cons_append, List.nil_append, utf8DecodeAux]
    rw [utf8Lead_one _ _ _ _ h1]
    simp only [List.drop_zero, hofn]
  · by_cases h2 : c.toNat < 2048
    · simp only [utf8EncodeChar, if_neg h1, if_pos h2, List.cons_append, List.nil_append,
        utf8DecodeAux, List.headD_cons, List.drop_succ_cons, List.drop_zero]
      rw [utf8Lead_two _ _ _ _ (by omega) (by omega) (by omega)]
      have harg : (192 + c.toNat / 64 - 192) * 64 + (128 + c.toNat % 64 - 128) = c.toNat := by
        omega
      simp only [List.drop_succ_cons, List.drop_zero, harg, hofn]
    · by_cases h3 : c.toNat < 65536
      · simp only [utf8EncodeChar, if_neg h1, if_neg h2, if_pos h3, List.cons_append,
          List.nil_append, utf8DecodeAux, List.headD_cons, List.drop_succ_cons, List.drop_zero]
        have hb1lo :
            (if 224 + c.toNat / 4096 = 224 then 160 else 128) ≤ 128 + c.toNat / 64 % 64 := by
          split
          · omega
          · omega
        have hb1hi :
            128 + c.toNat / 64 % 64 < (if 224 + c.toNat / 4096 = 237 then 160 else 192) := by
          split
          · omega
          · omega
        rw [utf8Lead_three _ _ _ _ (by omega) (by omega) ⟨hb1lo, hb1hi, by omega, by omega⟩]
        have harg : (224 + c.toNat / 4096 - 224) * 4096 + (128 + c.toNat / 64 % 64 - 128) * 64 +
            (128 + c.toNat % 64 - 128) = c.toNat := by omega
        simp only [List.drop_succ_cons, List.drop_zero, harg, hofn]
      · simp only [utf8EncodeChar, if_neg h1, if_neg h2, if_neg h3, List.cons_append,
          List.nil_append, utf8DecodeAux, List.headD_cons, List.drop_succ_cons, List.drop_zero]
        have hb1lo : (if 240 + c.toNat / 262144 = 240 then 144 else 128) ≤
            128 + c.toNat / 4096 % 64 := by
          split
          · omega
          · omega
        have hb1hi : 128 + c.toNat / 4096 % 64 <
            (if 240 + c.toNat / 262144 = 244 then 144 else 192) := by
          split
          · omega
          · omega
        rw [utf8Lead_four _ _ _ _ (by omega) (by omega)
          ⟨hb1lo, hb1hi, by omega, by omega, by omega, by omega⟩]
        have harg : (240 + c.toNat / 262144 - 240) * 262144 + (128 + c.toNat / 4096 % 64 - 128) *
            4096 + (128 + c.toNat / 64 % 64 - 128) * 64 + (128 + c.toNat % 64 - 128) = c.toNat := by
          omega
        simp only [List.drop_succ_cons, List.drop_zero, harg, hofn]

/-- Decoding an encoding succeeds given fuel at least the character count. -/
theorem utf8DecodeAux_encode (s : List Char) :
    ∀ fuel, s.length ≤ fuel → utf8DecodeAux fuel (utf8Encode s) = some s := by
  induction s with
  | nil =>
    intro fuel _
    cases fuel <;> rfl
  | cons c s ih =>
    intro fuel hf
    cases fuel with
    | zero => simp at hf
    | succ f =>
      rw [utf8Encode, utf8DecodeAux_encodeChar, ih f (by simpa using hf)]
      rfl

theorem length_le_utf8Encode_length (s : List Char) : s.length ≤ (utf8Encode s).length := by
  induction s with
  | nil => simp [utf8Encode]
  | cons c s ih =>
    have hc : 1 ≤ (utf8EncodeChar c).length := by
      simp only [utf8EncodeChar]
      split_ifs <;> simp
    simp only [utf8Encode, List.length_append, List.length_cons]
    omega

/-- Round trip of the string codec: encoding always decodes back. -/
theorem utf8Decode_utf8Encode (s : List Char) : utf8Decode (utf8Encode s) = some s :=
  utf8DecodeAux_encode s (utf8Encode s).length (length_le_utf8Encode_length s)

/-! ## Record codec

`GeoRecord` (build.rs:31-44), `write_record` (build.rs:481-495),
`write_lp_str` (build.rs:497-501) and the record-parsing tail of
`read_record_by_id` (main.rs:271-315, factored here as `parse_record` /
`read_lp_str`). -/

/-- `GeoRecord` (build.rs:31-44).  `lat` and `lon` are `f32` in the source;
they are carried here as their 32-bit IEEE-754 bit patterns, which is exactly
what `write_f32`/`read_f32` move. -/
structure GeoRecord where
  id : Nat
  name : List Char
  ascii_name : List Char
  country : List Char
  admin1 : List Char
  admin2 : List Char
  lat : Nat
  lon : Nat
  feat_class : Nat
  feat_code : List Char
  population : Nat
deriving DecidableEq

/-- Little-endian bytes of a `u32` (equivalently, of `v as u32`). -/
def u32le (v : Nat) : List Nat :=
  [v % 256, v / 256 % 256, v / 65536 % 256, v / 16777216 % 256]

/-- Little-endian bytes of a `u64`. -/
def u64le (v : Nat) : List Nat :=
  [v % 256, v / 256 % 256, v / 65536 % 256, v / 16777216 % 256,
   v / 4294967296 % 256, v / 1099511627776 % 256, v / 281474976710656 % 256,
   v / 72057594037927936 % 256]

/-- Value of a little-endian byte sequence. -/
def leVal : List Nat → Nat
  | [] => 0
  | b :: rest => b + 256 * leVal rest

/-- `write_lp_str` (build.rs:497-501): varint byte length (`b.len() as u32`,
hence the `% 2^32`), then the raw UTF-8 bytes. -/
def write_lp_str (s : List Char) : List Nat :=
  write_var_u32 ((utf8Encode s).length % 2 ^ 32) ++ utf8Encode s

/-- `write_record` (build.rs:481-495). -/
def write_record (r : GeoRecord) : List Nat :=
  u32le r.id ++ (u32le r.lat ++ (u32le r.lon ++ (u32le r.population ++ ([r.feat_class] ++
    (write_lp_str r.name ++ (write_lp_str r.country ++ (write_lp_str r.admin1 ++
      (write_lp_str r.admin2 ++ write_lp_str r.feat_code))))))))

/-- `Cursor::read_exact` over an in-memory buffer at absolute position
`pos`. -/
def readExact (buf : List Nat) (pos n : Nat) : Except Unit (List Nat) :=
  if pos + n ≤ buf.length then .ok ((buf.drop pos).take n) else .error ()

/-- `read_u32::<LittleEndian>` at a cursor position (also used for the `f32`
reads, which move the same four bytes). -/
def read_u32_cur (buf : List Nat) (pos : Nat) : Except Unit (Nat × Nat) :=
  match readExact buf pos 4 with
  | .error e => .error e
  | .ok bs => .ok (leVal bs, pos + 4)

/-- One-byte `read_exact` (the `feat_class` read, main.rs:277-278). -/
def read_u8_cur (buf : List Nat) (pos : Nat) : Except Unit (Nat × Nat) :=
  match readExact buf pos 1 with
  | .error e => .error e
  | .ok bs => .ok (bs.headD 0, pos + 1)

/-- `read_lp_str_cur` (main.rs:301-315): varint length at the cursor, bounds
check `end > buf.len()`, then mandatory UTF-8 validation. -/
def read_lp_str (buf : List Nat) (pos : Nat) : Except Unit (List Char × Nat) :=
  match read_var_u32 (buf.drop pos) with
  | .error e => .error e
  | .ok (len, len_bytes) =>
    let start := pos + len_bytes
    let stop := start + len
    if stop > buf.length then .error ()
    else
      match utf8Decode ((buf.drop start).take len) with
      | some s => .ok (s, stop)
      | none => .error ()

/-- The record-decoding tail of `read_record_by_id` (main.rs:271-298): the
sequential reads `id, lat, lon, population, feat_class` then the five
length-prefixed strings, over the buffer that starts at the record's
offset.  `ascii_name` is not read; it comes back empty. -/
def parse_record (buf : List Nat) : Except Unit GeoRecord :=
  match read_u32_cur buf 0 with
  | .error e => .error e
  | .ok (rid, p1) =>
    match read_u32_cur buf p1 with
    | .error e => .error e
    | .ok (lat, p2) =>
      match read_u32_cur buf p2 with
      | .error e => .error e
      | .ok (lon, p3) =>
        match read_u32_cur buf p3 with
        | .error e => .error e
        | .ok (pop, p4) =>
          match read_u8_cur buf p4 with
          | .error e => .error e
          | .ok (fc, p5) =>
            match read_lp_str buf p5 with
            | .error e => .error e
            | .ok (name, p6) =>
              match read_lp_str buf p6 with
              | .error e => .error e
              | .ok (country, p7) =>
                match read_lp_str buf p7 with
                | .error e => .error e
                | .ok (admin1, p8) =>
                  match read_lp_str buf p8 with
                  | .error e => .error e
                  | .ok (admin2, p9) =>
                    match read_lp_str buf p9 with
                    | .error e => .error e
                    | .ok (feat_code, _) =>
                      .ok ⟨rid, name, [], country, admin1, admin2, lat, lon, fc,
                        feat_code, pop⟩

/-- The bounds the Rust types guarantee for a `GeoRecord`: `u32` fields fit
in 32 bits, `feat_class` is a byte, string byte lengths fit in `u32`. -/
def GeoRecordWF (r : GeoRecord) : Prop :=
  r.id < 2 ^ 32 ∧ r.lat < 2 ^ 32 ∧ r.lon < 2 ^ 32 ∧ r.population < 2 ^ 32 ∧
    r.feat_class < 256 ∧ (utf8Encode r.name).length < 2 ^ 32 ∧
    (utf8Encode r.country).length < 2 ^ 32 ∧ (utf8Encode r.admin1).length < 2 ^ 32 ∧
    (utf8Encode r.admin2).length < 2 ^ 32 ∧ (utf8Encode r.feat_code).length < 2 ^ 32

theorem leVal_u32le (v : Nat) (hv : v < 2 ^ 32) : leVal (u32le v) = v := by
  simp only [u32le, leVal]
  omega

/-- Stepping a `u32` read over a known buffer suffix. -/
theorem read_u32_cur_step (buf : List Nat) (pos v : Nat) (suf : List Nat)
    (hv : v < 2 ^ 32) (hdrop : buf.drop pos = u32le v ++ suf) :
    read_u32_cur buf pos = .ok (v, pos + 4) ∧ buf.drop (pos + 4) = suf := by
  have hlen : buf.length - pos = 4 + suf.length := by
    have h := congrArg List.length hdrop
    simp [u32le] at h
    omega
  have hle : pos + 4 ≤ buf.length := by omega
  have htake : (buf.drop pos).take 4 = u32le v := by
    rw [hdrop]
    exact List.take_left' (by simp [u32le])
  have hdrop4 : buf.drop (pos + 4) = suf := by
    rw [← List.drop_drop, hdrop]
    exact List.drop_left' (by simp [u32le])
  refine ⟨?_, hdrop4⟩
  simp only [read_u32_cur, readExact, if_pos hle, htake, leVal_u32le v hv]

/-- Stepping the one-byte `feat_class` read. -/
theorem read_u8_cur_step (buf : List Nat) (pos b : Nat) (suf : List Nat)
    (hdrop : buf.drop pos = b :: suf) :
    read_u8_cur buf pos = .ok (b, pos + 1) ∧ buf.drop (pos + 1) = suf := by
  have hlen : buf.length - pos = 1 + suf.length := by
    have h := congrArg List.length hdrop
    simp at h
    omega
  have hle : pos + 1 ≤ buf.length := by omega
  have htake : (buf.drop pos).take 1 = [b] := by rw [hdrop]; rfl
  have hdrop1 : buf.drop (pos + 1) = suf := by
    rw [← List.drop_drop, hdrop]
    rfl
  refine ⟨?_, hdrop1⟩
  simp only [read_u8_cur, readExact, if_pos hle, htake, List.headD_cons]

/-- Stepping a length-prefixed string read over a known buffer suffix. -/
theorem read_lp_str_step (buf : List Nat) (pos : Nat) (s : List Char) (suf : List Nat)
    (hlen : (utf8Encode s).length < 2 ^ 32)
    (hdrop : buf.drop pos = write_lp_str s ++ suf) :
    read_lp_str buf pos = .ok (s, pos + (write_lp_str s).length) ∧
      buf.drop (pos + (write_lp_str s).length) = suf := by
  have hmod : (utf8Encode s).length % 2 ^ 32 = (utf8Encode s).length :=
    Nat.mod_eq_of_lt hlen
  have hshape : write_lp_str s =
      write_var_u32 (utf8Encode s).length ++ utf8Encode s := by
    rw [write_lp_str, hmod]
  have hread : read_var_u32 (buf.drop pos) =
      .ok ((utf8Encode s).length, (write_var_u32 (utf8Encode s).length).length) := by
    rw [hdrop, hshape, List.append_assoc]
    exact read_write_var_u32 _ hlen _
  have hblen : buf.length - pos = (write_lp_str s).length + suf.length := by
    have := congrArg List.length hdrop
    simp only [List.length_drop, List.length_append] at this
    omega
  have hwl : (write_lp_str s).length =
      (write_var_u32 (utf8Encode s).length).length + (utf8Encode s).length := by
    rw [hshape, List.length_append]
  have hwpos : 1 ≤ (write_var_u32 (utf8Encode s).length).length := by
    have h := writeVarAux_ne_nil 5 (utf8Encode s).length
    cases hc : write_var_u32 (utf8Encode s).length with
    | nil => exact absurd hc h
    | cons a l => simp
  have hstop : pos + (write_var_u32 (utf8Encode s).length).length + (utf8Encode s).length ≤
      buf.length := by omega
  have hdropstart : buf.drop (pos + (write_var_u32 (utf8Encode s).length).length) =
      utf8Encode s ++ suf := by
    rw [← List.drop_drop, hdrop, hshape, List.append_assoc]
    exact List.drop_left' rfl
  have htake : (buf.drop (pos + (write_var_u32 (utf8Encode s).length).length)).take
      (utf8Encode s).length = utf8Encode s := by
    rw [hdropstart]
    exact List.take_left' rfl
  have hdropall : buf.drop (pos + (write_lp_str s).length) = suf := by
    rw [hwl, ← Nat.add_assoc, ← List.drop_drop, hdropstart]
    exact List.drop_left' rfl
  refine ⟨?_, hdropall⟩
  rw [read_lp_str, hread]
  simp only
  rw [if_neg (by omega), htake, utf8Decode_utf8Encode]
  simp only [Except.ok.injEq, Prod.mk.injEq, true_and]
  omega

/-- C5: for every `GeoRecord` (whose persisted string fields are, as Rust
`String`s, valid UTF-8 by construction), decoding the bytes produced by
`write_record` yields a record equal to `r` in every field except
`ascii_name`, which is not persisted and comes back empty. -/
theorem record_roundtrip (r : GeoRecord) (h : GeoRecordWF r) :
    parse_record (write_record r) = .ok { r with ascii_name := [] } := by
  obtain ⟨hid, hlat, hlon, hpop, _hfc, hn, hc, ha1, ha2, hfcode⟩ := h
  have h0 : (write_record r).drop 0 = u32le r.id ++ (u32le r.lat ++ (u32le r.lon ++
      (u32le r.population ++ ([r.feat_class] ++ (write_lp_str r.name ++
        (write_lp_str r.country ++ (write_lp_str r.admin1 ++
          (write_lp_str r.admin2 ++ write_lp_str r.feat_code)))))))) := by
    rw [List.drop_zero, write_record]
  obtain ⟨e1, d1⟩ := read_u32_cur_step (write_record r) 0 r.id _ hid h0
  obtain ⟨e2, d2⟩ := read_u32_cur_step (write_record r) (0 + 4) r.lat _ hlat d1
  obtain ⟨e3, d3⟩ := read_u32_cur_step (write_record r) (0 + 4 + 4) r.lon _ hlon d2
  obtain ⟨e4, d4⟩ := read_u32_cur_step (write_record r) (0 + 4 + 4 + 4) r.population _ hpop d3
  obtain ⟨e5, d5⟩ := read_u8_cur_step (write_record r) (0 + 4 + 4 + 4 + 4) r.feat_class _
    (by simpa using d4)
  obtain ⟨e6, d6⟩ := read_lp_str_step (write_record r) (0 + 4 + 4 + 4 + 4 + 1) r.name _ hn d5
  obtain ⟨e7, d7⟩ := read_lp_str_step (write_record r)
    (0 + 4 + 4 + 4 + 4 + 1 + (write_lp_str r.name).length) r.country _ hc d6
  obtain ⟨e8, d8⟩ := read_lp_str_step (write_record r)
    (0 + 4 + 4 + 4 + 4 + 1 + (write_lp_str r.name).length + (write_lp_str r.country).length)
    r.admin1 _ ha1 d7
  obtain ⟨e9, d9⟩ := read_lp_str_step (write_record r)
    (0 + 4 + 4 + 4 + 4 + 1 + (write_lp_str r.name).length + (write_lp_str r.country).length +
      (write_lp_str r.admin1).length) r.admin2 _ ha2 d8
  obtain ⟨e10, _⟩ := read_lp_str_step (write_record r)
    (0 + 4 + 4 + 4 + 4 + 1 + (write_lp_str r.name).length + (write_lp_str r.country).length +
      (write_lp_str r.admin1).length + (write_lp_str r.admin2).length) r.feat_code []
    hfcode (by rw [d9, List.append_nil])
  rw [parse_record, e1]
  simp only
  rw [e2]
  simp only
  rw [e3]
  simp only
  rw [e4]
  simp only
  rw [e5]
  simp only
  rw [e6]
  simp only
  rw [e7]
  simp only
  rw [e8]
  simp only
  rw [e9]
  simp only
  rw [e10]

/-- Witness for `record_roundtrip` on a concrete record (multi-byte UTF-8 in
`name`, empty `admin` fields, non-persisted `ascii_name`). -/
theorem record_roundtrip_witness :
    GeoRecordWF ⟨101, ['P', 'a', 'r', 'í', 's'], ['x'], ['F', 'R'], [], [], 7, 9, 65,
        ['P', 'P', 'L'], 42⟩ ∧
      parse_record (write_record ⟨101, ['P', 'a', 'r', 'í', 's'], ['x'], ['F', 'R'], [], [],
          7, 9, 65, ['P', 'P', 'L'], 42⟩) =
        .ok ⟨101, ['P', 'a', 'r', 'í', 's'], [], ['F', 'R'], [], [], 7, 9, 65,
          ['P', 'P', 'L'], 42⟩ :=
  ⟨by unfold GeoRecordWF; decide, record_roundtrip _ (by unfold GeoRecordWF; decide)⟩

/-! ## Database file header

`MAGIC`/`VERSION` (build.rs:25-26), the `Db` struct (main.rs:94-104) and
`open_db` (main.rs:121-163). -/

/-- `MAGIC = b"GEODB1\0"` (build.rs:25). -/
def MAGIC : List Nat := [71, 69, 79, 68, 66, 49, 0]

/-- `VERSION = 2` (build.rs:26). -/
def VERSION : Nat := 2

/-- `Db` (main.rs:94-104). -/
structure Db where
  fst_start : Nat
  fst_len : Nat
  postings_start : Nat
  records_start : Nat
  offsets_start : Nat
  postings_len : Nat
  records_len : Nat
  offsets_len : Nat
  bytes : List Nat

/-- `read_u32::<LittleEndian>` on the header cursor: value only. -/
def read_u32_le (bytes : List Nat) (pos : Nat) : Except Unit Nat :=
  match readExact bytes pos 4 with
  | .error e => .error e
  | .ok bs => .ok (leVal bs)

/-- `read_u64::<LittleEndian>` on the header cursor: value only.  The source
immediately converts to `usize` (64-bit, lossless). -/
def read_u64_le (bytes : List Nat) (pos : Nat) : Except Unit Nat :=
  match readExact bytes pos 8 with
  | .error e => .error e
  | .ok bs => .ok (leVal bs)

/-- `open_db` (main.rs:121-163): check magic and version, read the four
section lengths (`u64 as usize`, lossless on 64-bit), compute section starts
after the 43-byte header, and reject as corrupt when
`offsets_start + offsets_len > bytes.len()`.  The section-start additions are
`usize` arithmetic, so each sum is taken modulo `2^64` exactly as the
release-build program wraps it; a header whose huge section lengths wrap the
sums back under the file length is accepted. -/
def open_db (bytes : List Nat) : Except Unit Db :=
  match readExact bytes 0 7 with
  | .error e => .error e
  | .ok magic =>
    if magic ≠ MAGIC then .error ()
    else
      match read_u32_le bytes 7 with
      | .error e => .error e
      | .ok ver =>
        if ver ≠ VERSION then .error ()
        else
          match read_u64_le bytes 11 with
          | .error e => .error e
          | .ok fst_len =>
            match read_u64_le bytes 19 with
            | .error e => .error e
            | .ok postings_len =>
              match read_u64_le bytes 27 with
              | .error e => .error e
              | .ok records_len =>
                match read_u64_le bytes 35 with
                | .error e => .error e
                | .ok offsets_len =>
                  let header_len := 7 + 4 + 8 * 4
                  let fst_start := header_len
                  let postings_start := (fst_start + fst_len) % 2 ^ 64
                  let records_start := (postings_start + postings_len) % 2 ^ 64
                  let offsets_start := (records_start + records_len) % 2 ^ 64
                  if (offsets_start + offsets_len) % 2 ^ 64 > bytes.length then .error ()
                  else
                    .ok ⟨fst_start, fst_len, postings_start, records_start, offsets_start,
                      postings_len, records_len, offsets_len, bytes⟩

/-- The `u64` header field starting at byte `pos`. -/
def hdrU64 (bytes : List Nat) (pos : Nat) : Nat :=
  leVal ((bytes.drop pos).take 8)

/-- C1 (amended): `open_db` succeeds exactly when the file has the full
43-byte header, the magic bytes equal `"GEODB1\0"`, the version field equals
2, and the `usize`-wrapping sum `offsets_start + offsets_len` (each addition
taken modulo `2^64`, as the program computes it) is at most `file_len`.
Equality with the file length is not required: trailing bytes beyond the last
section are accepted, and so are headers whose section lengths overflow the
sums back below the file length. -/
theorem open_db_succeeds_iff (bytes : List Nat) :
    (∃ db, open_db bytes = .ok db) ↔
      (43 ≤ bytes.length ∧ bytes.take 7 = MAGIC ∧
        leVal ((bytes.drop 7).take 4) = VERSION ∧
        ((((43 + hdrU64 bytes 11) % 2 ^ 64 + hdrU64 bytes 19) % 2 ^ 64 +
            hdrU64 bytes 27) % 2 ^ 64 + hdrU64 bytes 35) % 2 ^ 64 ≤ bytes.length) := by
  by_cases h43 : 43 ≤ bytes.length
  · have e7 : readExact bytes 0 7 = .ok (bytes.take 7) := by
      rw [readExact, if_pos (by omega)]
      simp
    have e11 : read_u32_le bytes 7 = .ok (leVal ((bytes.drop 7).take 4)) := by
      rw [read_u32_le, readExact, if_pos (by omega)]
    have e19 : read_u64_le bytes 11 = .ok (hdrU64 bytes 11) := by
      rw [read_u64_le, readExact, if_pos (by omega)]
      rfl
    have e27 : read_u64_le bytes 19 = .ok (hdrU64 bytes 19) := by
      rw [read_u64_le, readExact, if_pos (by omega)]
      rfl
    have e35 : read_u64_le bytes 27 = .ok (hdrU64 bytes 27) := by
      rw [read_u64_le, readExact, if_pos (by omega)]
      rfl
    have e43 : read_u64_le bytes 35 = .ok (hdrU64 bytes 35) := by
      rw [read_u64_le, readExact, if_pos (by omega)]
      rfl
    simp only [open_db, e7, e11, e19, e27, e35, e43]
    rw [show (7 + 4 + 8 * 4 : Nat) = 43 from rfl]
    by_cases hA : bytes.take 7 = MAGIC
    · by_cases hB : leVal ((bytes.drop 7).take 4) = VERSION
      · rw [if_neg (by simp [hA]), if_neg (by simp [hB])]
        by_cases hC : ((((43 + hdrU64 bytes 11) % 2 ^ 64 + hdrU64 bytes 19) % 2 ^ 64 +
            hdrU64 bytes 27) % 2 ^ 64 + hdrU64 bytes 35) % 2 ^ 64 > bytes.length
        · rw [if_pos hC]
          constructor
          · intro ⟨_, h⟩
            cases h
          · intro h
            omega
        · rw [if_neg hC]
          constructor
          · intro _
            refine ⟨h43, hA, hB, by omega⟩
          · intro _
            exact ⟨_, rfl⟩
      · rw [if_neg (by simp [hA]), if_pos (by simp [hB])]
        constructor
        · intro ⟨_, h⟩
          cases h
        · intro ⟨_, _, h, _⟩
          exact absurd h hB
    · rw [if_pos (by simp [hA])]
      constructor
      · intro ⟨_, h⟩
        cases h
      · intro ⟨_, h, _, _⟩
        exact absurd h hA
  · have h35 : read_u64_le bytes 35 = .error () := by
      rw [read_u64_le, readExact, if_neg (by omega)]
    constructor
    · intro ⟨db, hdb⟩
      exfalso
      simp only [open_db, h35] at hdb
      split at hdb
      · cases hdb
      · split at hdb
        · cases hdb
        · split at hdb
          · cases hdb
          · split at hdb
            · cases hdb
            · split at hdb
              · cases hdb
              · split at hdb
                · cases hdb
                · split at hdb
                  · cases hdb
                  · cases hdb
    · intro ⟨h, _⟩
      exact absurd h h43

/-- A minimal valid header (all four section lengths zero) followed by one
trailing byte: 44 bytes in all, with `offsets_start + offsets_len = 43`. -/
def dbTrailingByte : List Nat :=
  MAGIC ++ u32le 2 ++ (u64le 0 ++ (u64le 0 ++ (u64le 0 ++ (u64le 0 ++ [7]))))

/-- C1 counterexample: `open_db` accepts a 44-byte file whose sections
account for only the first 43 bytes, so `offsets_start + offsets_len` equals
the total file length is not required for success; only files whose sections
overrun the end are rejected. -/
theorem open_db_accepts_trailing_byte :
    open_db dbTrailingByte =
      .ok ⟨43, 0, 43, 43, 43, 0, 0, 0, dbTrailingByte⟩ ∧
      (43 : Nat) + 0 ≠ dbTrailingByte.length :=
  ⟨rfl, by decide⟩

/-! ## Build pipeline

`norm_key` (build.rs:95-103), `parse_alt_pair` (build.rs:363-395), the
posting-map phases of `build_db` (build.rs:125-201) and `write_db`
(build.rs:401-479).  Strings are `List Char`; the whitespace and lowercase
tables are the ASCII portions of the Unicode tables Rust uses - none of the
claims depend on entries beyond ASCII. -/

deriving instance DecidableEq for Except

/-- ASCII fragment of Rust `char::is_whitespace`. -/
def isWS (c : Char) : Bool :=
  c = ' ' || c = '\t' || c = '\n' || c = '\r'

/-- Rust `str::trim`: strip leading and trailing whitespace. -/
def trimStr (s : List Char) : List Char :=
  ((s.dropWhile isWS).reverse.dropWhile isWS).reverse

/-- Rust `str::to_lowercase`, character-wise (ASCII fragment). -/
def toLowerStr (s : List Char) : List Char :=
  s.map Char.toLower

/-- `norm_key` (build.rs:95-103): trim; empty-after-trim is rejected,
otherwise lowercase. -/
def norm_key (s : List Char) : Option (List Char) :=
  let t := trimStr s
  if t = [] then none else some (toLowerStr t)

/-- Rust `str::split('\t')`: always at least one field; empty fields kept. -/
def splitTab : List Char → List (List Char)
  | [] => [[]]
  | c :: rest =>
    match splitTab rest with
    | [] => [[]]
    | h :: t => if c = '\t' then [] :: h :: t else (c :: h) :: t

/-- Rust `str::parse::<u32>`: an optional leading `+`, then one or more
ASCII digits, value below `2^32`; anything else (including the empty string
and overflow) is an error. -/
def parseU32 (s : List Char) : Option Nat :=
  let t := if s.head? = some '+' then s.tail else s
  if t = [] then none
  else if t.all (fun c => c.isDigit) then
    let v := t.foldl (fun a c => a * 10 + (c.toNat - 48)) 0
    if v < 2 ^ 32 then some v else none
  else none

/-- `parse_alt_pair` (build.rs:363-395).  The admitted-id `HashSet` is
modelled by a list with the same membership.  The function never constructs
an `Err`: missing columns, an unparsable or unadmitted id, and an
empty-after-trim name all yield `Ok(None)`. -/
def parse_alt_pair (line : List Char) (id_present : List Nat) :
    Except Unit (Option (List Char × Nat)) :=
  match splitTab line with
  | _altId :: geo :: _iso :: altName :: _ =>
    match parseU32 geo with
    | none => .ok none
    | some gid =>
      if gid ∈ id_present then
        match norm_key altName with
        | some k => .ok (some (k, gid))
        | none => .ok none
      else .ok none
  | _ => .ok none

/-- The build's `key_to_ids` map (`HashMap<String, SmallVec<u32>>`,
build.rs:92), modelled as an association list; per-key posting lists are
what the claims quantify over, so the unspecified hash iteration order is
irrelevant. -/
abbrev KeyMap := List (List Char × List Nat)

/-- `key_to_ids.entry(k).or_default().push(id)` (build.rs:159, 161, 352). -/
def mapPush : KeyMap → List Char → Nat → KeyMap
  | [], k, id => [(k, [id])]
  | (k', ids) :: rest, k, id =>
    if k' = k then (k', ids ++ [id]) :: rest else (k', ids) :: mapPush rest k id

/-- Push under an optional normalized key (no-op when `norm_key` rejected). -/
def pushKeyOpt (m : KeyMap) (k : Option (List Char)) (id : Nat) : KeyMap :=
  match k with
  | none => m
  | some key => mapPush m key id

/-- Phase "seed from primary names" (build.rs:153-168): for each record in
order, push its id under `norm_key(name)` and under `norm_key(ascii_name)`. -/
def seed_names : List GeoRecord → KeyMap → KeyMap
  | [], m => m
  | r :: rest, m =>
    seed_names rest (pushKeyOpt (pushKeyOpt m (norm_key r.name) r.id) (norm_key r.ascii_name) r.id)

/-- Phase "merge alternate names" (build.rs:309-361): emitted pairs are
pushed in line order; parse failures and filtered lines contribute
nothing. -/
def merge_altnames : List (List Char) → List Nat → KeyMap → KeyMap
  | [], _, m => m
  | line :: rest, idp, m =>
    match parse_alt_pair line idp with
    | .ok (some (k, gid)) => merge_altnames rest idp (mapPush m k gid)
    | _ => merge_altnames rest idp m

/-- `Vec::dedup`: remove adjacent equal elements. -/
def dedupAdj : List Nat → List Nat
  | [] => []
  | [a] => [a]
  | a :: b :: rest => if a = b then dedupAdj (b :: rest) else a :: dedupAdj (b :: rest)

/-- Phase "sort + dedup postings" (build.rs:176-188): for each key with more
than one id, `sort_unstable` then `dedup`.  `insertionSort` computes the same
ascending rearrangement on `Nat` keys as `sort_unstable`. -/
def finalize_postings (m : KeyMap) : KeyMap :=
  m.map (fun p =>
    (p.1, if 1 < p.2.length then dedupAdj (List.insertionSort (· ≤ ·) p.2) else p.2))

/-- `build_db` phases 2-6 (build.rs:142-188): the id-presence set, the seeded
and merged posting map, then sort + dedup.  Phase 1 (archive parsing) is
abstracted by quantifying over the parsed record list and the alternate-name
lines. -/
def build_key_to_ids (records : List GeoRecord) (altLines : List (List Char)) : KeyMap :=
  finalize_postings
    (merge_altnames altLines (records.map (fun r => r.id)) (seed_names records []))

/-! ## Opened database and query path

The opened database as the query path sees it (main.rs:106-119): the four
section slices, with the FST section represented by the key-to-offset map the
byte-exact `fst::Map` encodes (the `fst` crate is an external dependency; its
on-disk automaton is treated as the ordered map abstraction the spec
defines). -/

structure DbM where
  fstMap : List (List Char × Nat)
  postings : List Nat
  records : List Nat
  offsets : List Nat
deriving DecidableEq

/-- `fst::Map::get`: exact-key lookup. -/
def fst_get : List (List Char × Nat) → List Char → Option Nat
  | [], _ => none
  | (k, v) :: rest, q => if k = q then some v else fst_get rest q

/-- `read_postings` (main.rs:213-227). -/
def read_postings (db : DbM) (off : Nat) : Except Unit (List Nat) :=
  if off ≥ db.postings.length then .error ()
  else
    match read_var_u32 (db.postings.drop off) with
    | .error e => .error e
    | .ok (len, len_bytes) =>
      if len_bytes + len > (db.postings.drop off).length then .error ()
      else .ok (decode_delta_varints (((db.postings.drop off).drop len_bytes).take len))

/-- `read_u32_le_at` (main.rs:355-358). -/
def read_u32_le_at (b : List Nat) (off : Nat) : Nat :=
  leVal ((b.drop off).take 4)

/-- `read_u64_le_at` (main.rs:360-363). -/
def read_u64_le_at (b : List Nat) (off : Nat) : Nat :=
  leVal ((b.drop off).take 8)

/-- The lower-bound binary search of `read_record_by_id` (main.rs:245-255).
The interval shrinks every iteration, so fuel `n` (the table size) is
adequate for the source's `while lo < hi` loop. -/
def bsearchGo (ids_bytes : List Nat) (id : Nat) : Nat → Nat → Nat → Nat
  | 0, lo, _ => lo
  | fuel + 1, lo, hi =>
    if lo < hi then
      let mid := (lo + hi) / 2
      if read_u32_le_at ids_bytes (mid * 4) < id then bsearchGo ids_bytes id fuel (mid + 1) hi
      else bsearchGo ids_bytes id fuel lo mid
    else lo

/-- `read_record_by_id` (main.rs:229-299): parse the offsets table header,
binary-search the id column, `Ok(None)` on a miss, otherwise bounds-check the
record offset and decode the record there. -/
def read_record_by_id (db : DbM) (id : Nat) : Except Unit (Option GeoRecord) :=
  match read_u32_le db.offsets 0 with
  | .error e => .error e
  | .ok n =>
    let ids_start := 4
    let ids_end := ids_start + n * 4
    let offs_start := ids_end
    let offs_end := offs_start + n * 8
    if offs_end > db.offsets.length then .error ()
    else
      let ids_bytes := (db.offsets.drop ids_start).take (n * 4)
      let lo := bsearchGo ids_bytes id n 0 n
      if lo ≥ n then .ok none
      else
        let found := read_u32_le_at ids_bytes (lo * 4)
        if found ≠ id then .ok none
        else
          let offs_bytes := (db.offsets.drop offs_start).take (n * 8)
          let off := read_u64_le_at offs_bytes (lo * 8)
          if off ≥ db.records.length then .error ()
          else
            match parse_record (db.records.drop off) with
            | .error e => .error e
            | .ok r => .ok (some r)

/-- `OutCandidateOwned` (main.rs:55-67).  `feature_class` is the
`feat_class` byte (`as char` in the source). -/
structure Candidate where
  geoname_id : Nat
  name : List Char
  country : List Char
  admin1 : List Char
  admin2 : List Char
  lat : Nat
  lon : Nat
  feature_class : Nat
  feature_code : List Char
  population : Nat
deriving DecidableEq

/-- The candidate built from a record (main.rs:185-196). -/
def to_candidate (r : GeoRecord) : Candidate :=
  ⟨r.id, r.name, r.country, r.admin1, r.admin2, r.lat, r.lon, r.feat_class, r.feat_code,
    r.population⟩

/-- `OutJsonOwned` (main.rs:69-74). -/
structure OutJson where
  key : List Char
  count : Nat
  candidates : List Candidate
deriving DecidableEq

/-- The candidate-collection loop of `query_exact` (main.rs:183-198): one
`read_record_by_id` per id, misses skipped silently, errors propagated. -/
def collect_candidates : DbM → List Nat → Except Unit (List Candidate)
  | _, [] => .ok []
  | db, id :: rest =>
    match read_record_by_id db id with
    | .error e => .error e
    | .ok none => collect_candidates db rest
    | .ok (some r) =>
      match collect_candidates db rest with
      | .error e => .error e
      | .ok cs => .ok (to_candidate r :: cs)

/-- `query_exact` (main.rs:169-207) after `open_db`: normalize the key, FST
lookup (absent key gives the empty result), postings decode, truncate to
`limit` when `limit != 0 && ids.len() > limit`, then materialize records. -/
def query_exact (db : DbM) (key : List Char) (limit : Nat) : Except Unit OutJson :=
  let lookup_key := toLowerStr (trimStr key)
  match fst_get db.fstMap lookup_key with
  | none => .ok ⟨key, 0, []⟩
  | some off =>
    match read_postings db off with
    | .error e => .error e
    | .ok ids0 =>
      let ids := if limit ≠ 0 ∧ ids0.length > limit then ids0.take limit else ids0
      match collect_candidates db ids with
      | .error e => .error e
      | .ok cands => .ok ⟨key, cands.length, cands⟩

/-! ## Serialization (`write_db`, build.rs:401-479) -/

/-- Byte-lexicographic comparison on keys (`a.0.cmp(b.0)`, build.rs:405; on
UTF-8 bytes this order coincides with scalar-value order). -/
def keyLe : List Char → List Char → Bool
  | [], _ => true
  | _ :: _, [] => false
  | x :: xs, y :: ys => if x < y then true else if y < x then false else keyLe xs ys

/-- The postings-and-FST loop (build.rs:412-431): for each key in sorted
order, record the current blob offset in the FST map and append the
length-prefixed encoded posting list. -/
def build_fst_go : List (List Char × List Nat) → List Nat → (List (List Char × Nat) × List Nat)
  | [], blob => ([], blob)
  | (k, ids) :: rest, blob =>
    let enc := encode_delta_varints ids
    let blob2 := blob ++ write_var_u32 (enc.length % 2 ^ 32) ++ enc
    let m := build_fst_go rest blob2
    ((k, blob.length) :: m.1, m.2)

/-- The records loop (build.rs:439-454): records sorted by id, each id paired
with its offset into the growing records blob. -/
def build_records_go : List GeoRecord → List Nat → (List (Nat × Nat) × List Nat)
  | [], blob => ([], blob)
  | r :: rest, blob =>
    let blob2 := blob ++ write_record r
    let ps := build_records_go rest blob2
    ((r.id, blob.length) :: ps.1, ps.2)

/-- `write_db` (build.rs:401-479) viewed through the opened database: keys
sorted byte-lexicographically for the FST builder, postings blob, records
blob, and the offsets table `n, ids[n], rec_offs[n]`. -/
def write_db (m : KeyMap) (records : List GeoRecord) : DbM :=
  let keys := List.insertionSort (fun a b => keyLe a.1 b.1 = true) m
  let fp := build_fst_go keys []
  let recs := List.insertionSort (fun a b => a.id ≤ b.id) records
  let rb := build_records_go recs []
  let offsets_blob := u32le rb.1.length ++ ((rb.1.map (fun p => u32le p.1)).flatten ++
    (rb.1.map (fun p => u64le p.2)).flatten)
  ⟨fp.1, fp.2, rb.2, offsets_blob⟩

/-- The whole build (`build_db`, build.rs:125-201), from parsed inputs to the
database the query path sees. -/
def build_db_model (records : List GeoRecord) (altLines : List (List Char)) : DbM :=
  write_db (build_key_to_ids records altLines) records

/-! ## Claim theorems for the parsers and the build -/

/-- C6: `parse_alt_pair` emits a pair `(norm(alt_name), geoname_id)` exactly
when the `geoname_id` column (column 1) parses as a `u32`, that id is in the
admitted-id set, and the normalized `alt_name` (column 3, trimmed and
lowercased) is non-empty; in every other case (including missing columns)
the line yields no pair - and never an error. -/
theorem parse_alt_pair_characterization (line : List Char) (idp : List Nat) :
    (∀ k gid, parse_alt_pair line idp = .ok (some (k, gid)) ↔
      ((∃ geo, (splitTab line).get? 1 = some geo ∧ parseU32 geo = some gid) ∧
        gid ∈ idp ∧
        ∃ altName, (splitTab line).get? 3 = some altName ∧ norm_key altName = some k)) ∧
    parse_alt_pair line idp ≠ .error () := by
  rcases h : splitTab line with _ | ⟨c0, l1⟩
  · simp [parse_alt_pair, h]
  rcases l1 with _ | ⟨c1, l2⟩
  · simp [parse_alt_pair, h]
  rcases l2 with _ | ⟨c2, l3⟩
  · simp [parse_alt_pair, h]
  rcases l3 with _ | ⟨c3, l4⟩
  · simp [parse_alt_pair, h]
  rcases hp : parseU32 c1 with _ | gid'
  · simp [parse_alt_pair, h, hp]
  by_cases hm : gid' ∈ idp
  · rcases hn : norm_key c3 with _ | k'
    · simp [parse_alt_pair, h, hp, hm, hn]
    · constructor
      · intro k gid
        simp only [parse_alt_pair, h, hp, if_pos hm, hn, List.get?]
        constructor
        · intro heq
          have : k' = k ∧ gid' = gid := by
            have h1 := Except.ok.inj heq
            have h2 := Option.some.inj h1
            exact ⟨congrArg Prod.fst h2, congrArg Prod.snd h2⟩
          obtain ⟨rfl, rfl⟩ := this
          exact ⟨⟨c1, rfl, hp⟩, hm, ⟨c3, rfl, hn⟩⟩
        · rintro ⟨⟨geo, hgeo, hpg⟩, hgm, ⟨alt, halt, hna⟩⟩
          have hg : c1 = geo := by
            simpa using hgeo
          have ha : c3 = alt := by
            simpa using halt
          subst hg
          subst ha
          rw [hp] at hpg
          rw [hn] at hna
          have h1 := Option.some.inj hpg
          have h2 := Option.some.inj hna
          subst h1
          subst h2
          rfl
      · simp [parse_alt_pair, h, hp, hm, hn]
  · simp [parse_alt_pair, h, hp, hm]

/-- The result `query_exact` assembles from a given id list: candidates for
those ids in order (misses skipped), `count = candidates.len()`, the original
key echoed. -/
def query_result_for (db : DbM) (key : List Char) (ids : List Nat) : Except Unit OutJson :=
  match collect_candidates db ids with
  | .error e => .error e
  | .ok cands => .ok ⟨key, cands.length, cands⟩

/-- C4: for an opened database and a key whose posting list decodes to
`ids`: `limit == 0` materializes all of `ids`; `limit ≥ ids.length` behaves
identically (the list is unchanged); `0 < limit < ids.length` materializes
exactly the first `limit` ids - the ascending-by-id prefix - of the posting
list. -/
theorem query_limit_behavior (db : DbM) (key : List Char) (limit off : Nat) (ids : List Nat)
    (hfst : fst_get db.fstMap (toLowerStr (trimStr key)) = some off)
    (hpost : read_postings db off = .ok ids) :
    (limit = 0 → query_exact db key limit = query_result_for db key ids) ∧
    (ids.length ≤ limit → query_exact db key limit = query_result_for db key ids) ∧
    (0 < limit → limit < ids.length →
      query_exact db key limit = query_result_for db key (ids.take limit) ∧
        (ids.take limit).length = limit) := by
  refine ⟨?_, ?_, ?_⟩
  · intro h0
    simp only [query_exact, hfst, hpost, query_result_for]
    rw [if_neg (by omega)]
  · intro hge
    simp only [query_exact, hfst, hpost, query_result_for]
    rw [if_neg (by omega)]
  · intro hpos hlt
    constructor
    · simp only [query_exact, hfst, hpost, query_result_for]
      rw [if_pos ⟨by omega, by omega⟩]
    · simp only [List.length_take]
      omega

/-! ### Posting-map invariants (C2) -/

/-- Per-entry invariant of the posting map while it is being built: every
list is non-empty and holds `u32` values. -/
def mapListsWF (m : KeyMap) : Prop :=
  ∀ p ∈ m, p.2 ≠ [] ∧ ∀ i ∈ p.2, i < 2 ^ 32

theorem mapPush_wf {m : KeyMap} (k : List Char) {id : Nat} (hm : mapListsWF m)
    (hid : id < 2 ^ 32) : mapListsWF (mapPush m k id) := by
  induction m with
  | nil =>
    intro p hp
    simp only [mapPush, List.mem_singleton] at hp
    subst hp
    exact ⟨by simp, by simpa using hid⟩
  | cons q rest ih =>
    intro p hp
    obtain ⟨hq, hrest⟩ := List.forall_mem_cons.1 hm
    rw [show mapPush (q :: rest) k id =
        if q.1 = k then (q.1, q.2 ++ [id]) :: rest else q :: mapPush rest k id from by
      cases q
      rfl] at hp
    by_cases he : q.1 = k
    · rw [if_pos he] at hp
      rcases List.mem_cons.1 hp with rfl | hp'
      · refine ⟨by simp, ?_⟩
        intro i hi
        rcases List.mem_append.1 hi with hi' | hi'
        · exact hq.2 i hi'
        · have : i = id := by simpa using hi'
          exact this ▸ hid
      · exact hrest p hp'
    · rw [if_neg he] at hp
      rcases List.mem_cons.1 hp with rfl | hp'
      · exact hq
      · exact ih hrest p hp'

theorem pushKeyOpt_wf {m : KeyMap} (k : Option (List Char)) {id : Nat} (hm : mapListsWF m)
    (hid : id < 2 ^ 32) : mapListsWF (pushKeyOpt m k id) := by
  cases k with
  | none => exact hm
  | some key => exact mapPush_wf key hm hid

theorem seed_names_wf (records : List GeoRecord) :
    ∀ m : KeyMap, (∀ r ∈ records, r.id < 2 ^ 32) → mapListsWF m →
      mapListsWF (seed_names records m) := by
  induction records with
  | nil => intro m _ hm; exact hm
  | cons r rest ih =>
    intro m hid hm
    have hr : r.id < 2 ^ 32 := hid r (by simp)
    exact ih _ (fun r' hr' => hid r' (by simp [hr']))
      (pushKeyOpt_wf _ (pushKeyOpt_wf _ hm hr) hr)

theorem parseU32_lt {s : List Char} {v : Nat} (h : parseU32 s = some v) : v < 2 ^ 32 := by
  simp only [parseU32] at h
  by_cases h1 : (if s.head? = some '+' then s.tail else s) = []
  · rw [if_pos h1] at h
    cases h
  · rw [if_neg h1] at h
    by_cases h2 : ((if s.head? = some '+' then s.tail else s).all fun c => c.isDigit) = true
    · rw [if_pos h2] at h
      by_cases h3 : List.foldl (fun a c => a * 10 + (c.toNat - 48)) 0
          (if s.head? = some '+' then s.tail else s) < 2 ^ 32
      · rw [if_pos h3] at h
        have hv := Option.some.inj h
        omega
      · rw [if_neg h3] at h
        cases h
    · rw [if_neg h2] at h
      cases h

/-- Dissecting a successful `parse_alt_pair`: the id is a parsed `u32` and
the key is some `norm_key` output. -/
theorem parse_alt_pair_ok_some {line : List Char} {idp : List Nat} {k : List Char} {gid : Nat}
    (h : parse_alt_pair line idp = .ok (some (k, gid))) :
    gid < 2 ^ 32 ∧ ∃ s, norm_key s = some k := by
  unfold parse_alt_pair at h
  split at h
  · rename_i geo _ altName _ _
    split at h
    · cases h
    · rename_i gid' hp
      split at h
      · split at h
        · rename_i k' hn
          have h1 := Option.some.inj (Except.ok.inj h)
          have hk : k' = k := congrArg Prod.fst h1
          have hg : gid' = gid := congrArg Prod.snd h1
          subst hk
          subst hg
          exact ⟨parseU32_lt hp, altName, hn⟩
        · cases h
      · cases h
  · cases h

theorem merge_altnames_wf (altLines : List (List Char)) :
    ∀ (idp : List Nat) (m : KeyMap), mapListsWF m →
      mapListsWF (merge_altnames altLines idp m) := by
  induction altLines with
  | nil => intro idp m hm; exact hm
  | cons line rest ih =>
    intro idp m hm
    rw [merge_altnames]
    split
    · rename_i k gid hline
      exact ih idp _ (mapPush_wf k hm (parse_alt_pair_ok_some hline).1)
    · exact ih idp m hm

theorem dedupAdj_head? (b : Nat) : ∀ t : List Nat, (dedupAdj (b :: t)).head? = some b := by
  intro t
  induction t generalizing b with
  | nil => rfl
  | cons c t ih =>
    rw [dedupAdj]
    by_cases he : b = c
    · rw [if_pos he, he]
      exact he ▸ ih c
    · rw [if_neg he]
      rfl

theorem dedupAdj_ne_nil {l : List Nat} (h : l ≠ []) : dedupAdj l ≠ [] := by
  cases l with
  | nil => exact absurd rfl h
  | cons b t =>
    intro hc
    have := dedupAdj_head? b t
    rw [hc] at this
    cases this

theorem mem_dedupAdj {l : List Nat} {x : Nat} (h : x ∈ dedupAdj l) : x ∈ l := by
  induction l with
  | nil => simpa [dedupAdj] using h
  | cons b t ih =>
    cases t with
    | nil => simpa [dedupAdj] using h
    | cons c t' =>
      rw [dedupAdj] at h
      by_cases he : b = c
      · rw [if_pos he] at h
        exact List.mem_cons_of_mem b (ih h)
      · rw [if_neg he] at h
        rcases List.mem_cons.1 h with rfl | h'
        · exact List.mem_cons_self x _
        · exact List.mem_cons_of_mem b (ih h')

theorem chain'_lt_dedupAdj : ∀ {l : List Nat}, List.Chain' (· ≤ ·) l →
    List.Chain' (· < ·) (dedupAdj l) := by
  intro l
  induction l with
  | nil => intro _; simp [dedupAdj]
  | cons b t ih =>
    intro h
    cases t with
    | nil => simp [dedupAdj]
    | cons c t' =>
      obtain ⟨hbc, h'⟩ := List.chain'_cons.1 h
      rw [dedupAdj]
      by_cases he : b = c
      · rw [if_pos he]
        exact ih h'
      · rw [if_neg he]
        refine List.chain'_cons'.2 ⟨?_, ih h'⟩
        intro y hy
        rw [dedupAdj_head? c t'] at hy
        have hcy : c = y := by simpa using hy
        subst hcy
        omega

/-- C2: after Phase 5 (sort + dedup), every posting list in the key-to-ids
map built by `build_db` is non-empty, strictly ascending, duplicate-free -
and therefore survives the delta + varint encoding that `write_db` applies
to it unchanged. -/
theorem build_postings_invariant (records : List GeoRecord) (altLines : List (List Char))
    (hid : ∀ r ∈ records, r.id < 2 ^ 32) :
    ∀ k ids, (k, ids) ∈ build_key_to_ids records altLines →
      ids ≠ [] ∧ List.Chain' (· < ·) ids ∧ ids.Nodup ∧
        decode_delta_varints (encode_delta_varints ids) = ids := by
  intro k ids hmem
  have hwf : mapListsWF
      (merge_altnames altLines (records.map (fun r => r.id)) (seed_names records [])) :=
    merge_altnames_wf altLines _ _ (seed_names_wf records [] hid (by intro p hp; cases hp))
  rw [build_key_to_ids, finalize_postings] at hmem
  obtain ⟨p, hp, heq⟩ := List.mem_map.1 hmem
  obtain ⟨hne, hbound⟩ := hwf p hp
  have hk : p.1 = k := congrArg Prod.fst heq
  have hids : (if 1 < p.2.length then dedupAdj (List.insertionSort (· ≤ ·) p.2) else p.2) =
      ids := congrArg Prod.snd heq
  by_cases hlen : 1 < p.2.length
  · rw [if_pos hlen] at hids
    subst hids
    have hsorted : List.Sorted (· ≤ ·) (List.insertionSort (· ≤ ·) p.2) :=
      List.sorted_insertionSort _ _
    have hperm : List.Perm (List.insertionSort (· ≤ ·) p.2) p.2 := List.perm_insertionSort _ _
    have hsne : List.insertionSort (· ≤ ·) p.2 ≠ [] := by
      intro hc
      have hl := hperm.length_eq
      rw [hc] at hl
      simp only [List.length_nil] at hl
      omega
    have hchain : List.Chain' (· < ·) (dedupAdj (List.insertionSort (· ≤ ·) p.2)) :=
      chain'_lt_dedupAdj (List.chain'_iff_pairwise.2 hsorted)
    refine ⟨dedupAdj_ne_nil hsne, hchain, ?_, ?_⟩
    · exact (List.chain'_iff_pairwise.1 hchain).imp Nat.ne_of_lt
    · exact decode_encode_delta _ hchain
        (fun x hx => hbound x (hperm.mem_iff.1 (mem_dedupAdj hx)))
  · rw [if_neg hlen] at hids
    subst hids
    have hpos : 0 < p.2.length := List.length_pos.2 hne
    have hlen1 : p.2.length = 1 := by omega
    obtain ⟨a, ha⟩ := List.length_eq_one.1 hlen1
    rw [ha]
    refine ⟨by simp, by simp, by simp, ?_⟩
    exact decode_encode_delta _ (by simp)
      (by simpa using hbound a (by rw [ha]; exact List.mem_singleton_self a))

/-- Witness for `build_postings_invariant`: one record named `"a"`, no
alternate names; the key `"a"` carries the posting list `[5]`. -/
theorem build_postings_invariant_witness :
    (∀ r ∈ [(⟨5, ['a'], [], [], [], [], 0, 0, 63, [], 10⟩ : GeoRecord)], r.id < 2 ^ 32) ∧
      ((['a'], [5]) ∈
        build_key_to_ids [⟨5, ['a'], [], [], [], [], 0, 0, 63, [], 10⟩] []) ∧
      ([5] : List Nat) ≠ [] ∧ List.Chain' (· < ·) [5] ∧ ([5] : List Nat).Nodup ∧
        decode_delta_varints (encode_delta_varints [5]) = [5] :=
  ⟨by decide, by decide,
    build_postings_invariant [⟨5, ['a'], [], [], [], [], 0, 0, 63, [], 10⟩] []
      (by decide) ['a'] [5] (by decide)⟩

/-! ### No empty key ever reaches the FST (C9) -/

/-- Key invariant of the posting map: no key is the empty string. -/
def mapKeysWF (m : KeyMap) : Prop :=
  ∀ p ∈ m, p.1 ≠ []

theorem norm_key_ne_nil {s k : List Char} (h : norm_key s = some k) : k ≠ [] := by
  simp only [norm_key] at h
  by_cases h1 : trimStr s = []
  · rw [if_pos h1] at h
    cases h
  · rw [if_neg h1] at h
    have hk := Option.some.inj h
    subst hk
    simp only [toLowerStr]
    intro hc
    exact h1 (List.map_eq_nil.1 hc)

theorem mapPush_keys {m : KeyMap} {k : List Char} {id : Nat} (hm : mapKeysWF m)
    (hk : k ≠ []) : mapKeysWF (mapPush m k id) := by
  induction m with
  | nil =>
    intro p hp
    simp only [mapPush, List.mem_singleton] at hp
    subst hp
    exact hk
  | cons q rest ih =>
    intro p hp
    obtain ⟨hq, hrest⟩ := List.forall_mem_cons.1 hm
    rw [show mapPush (q :: rest) k id =
        if q.1 = k then (q.1, q.2 ++ [id]) :: rest else q :: mapPush rest k id from by
      cases q
      rfl] at hp
    by_cases he : q.1 = k
    · rw [if_pos he] at hp
      rcases List.mem_cons.1 hp with rfl | hp'
      · exact hq
      · exact hrest p hp'
    · rw [if_neg he] at hp
      rcases List.mem_cons.1 hp with rfl | hp'
      · exact hq
      · exact ih hrest p hp'

theorem pushKeyOpt_keys {m : KeyMap} {k : Option (List Char)} {id : Nat} (hm : mapKeysWF m)
    (hk : ∀ key, k = some key → key ≠ []) : mapKeysWF (pushKeyOpt m k id) := by
  cases k with
  | none => exact hm
  | some key => exact mapPush_keys hm (hk key rfl)

theorem seed_names_keys (records : List GeoRecord) :
    ∀ m : KeyMap, mapKeysWF m → mapKeysWF (seed_names records m) := by
  induction records with
  | nil => intro m hm; exact hm
  | cons r rest ih =>
    intro m hm
    refine ih _ (pushKeyOpt_keys (pushKeyOpt_keys hm ?_) ?_)
    · intro key hkey
      exact norm_key_ne_nil hkey
    · intro key hkey
      exact norm_key_ne_nil hkey

theorem merge_altnames_keys (altLines : List (List Char)) :
    ∀ (idp : List Nat) (m : KeyMap), mapKeysWF m →
      mapKeysWF (merge_altnames altLines idp m) := by
  induction altLines with
  | nil => intro idp m hm; exact hm
  | cons line rest ih =>
    intro idp m hm
    rw [merge_altnames]
    split
    · rename_i k gid hline
      obtain ⟨_, s, hs⟩ := parse_alt_pair_ok_some hline
      exact ih idp _ (mapPush_keys hm (norm_key_ne_nil hs))
    · exact ih idp m hm

theorem finalize_postings_keys {m : KeyMap} (hm : mapKeysWF m) :
    mapKeysWF (finalize_postings m) := by
  intro p hp
  obtain ⟨q, hq, hqp⟩ := List.mem_map.1 hp
  have := hm q hq
  rw [← hqp]
  exact this

theorem build_fst_go_keys :
    ∀ (keys : List (List Char × List Nat)) (blob : List Nat) (q : List Char × Nat),
      q ∈ (build_fst_go keys blob).1 → ∃ p ∈ keys, q.1 = p.1 := by
  intro keys
  induction keys with
  | nil =>
    intro blob q hq
    simp [build_fst_go] at hq
  | cons e rest ih =>
    intro blob q hq
    rw [show build_fst_go (e :: rest) blob =
        ((e.1, blob.length) ::
          (build_fst_go rest (blob ++ write_var_u32 ((encode_delta_varints e.2).length % 2 ^ 32)
            ++ encode_delta_varints e.2)).1,
         (build_fst_go rest (blob ++ write_var_u32 ((encode_delta_varints e.2).length % 2 ^ 32)
            ++ encode_delta_varints e.2)).2) from by
      cases e
      simp only [build_fst_go, List.append_assoc]] at hq
    rcases List.mem_cons.1 hq with rfl | hq'
    · exact ⟨e, by simp, rfl⟩
    · obtain ⟨p, hp, hqp⟩ := ih _ q hq'
      exact ⟨p, by simp [hp], hqp⟩

theorem fst_get_none {l : List (List Char × Nat)} {q : List Char}
    (h : ∀ p ∈ l, p.1 ≠ q) : fst_get l q = none := by
  induction l with
  | nil => rfl
  | cons e rest ih =>
    rw [show fst_get (e :: rest) q = if e.1 = q then some e.2 else fst_get rest q from by
      cases e
      rfl]
    rw [if_neg (h e (by simp))]
    exact ih (fun p hp => h p (by simp [hp]))

/-- C9: a query whose key is empty or whitespace-only succeeds against any
database built by `build_db` and returns the empty candidate list with
`count = 0`: the normalized key is the empty string, and the build never
inserts an empty key into the FST (`norm_key` rejects empty-after-trim
keys). -/
theorem query_empty_key_result (records : List GeoRecord) (altLines : List (List Char))
    (key : List Char) (limit : Nat) (hkey : trimStr key = []) :
    query_exact (build_db_model records altLines) key limit = .ok ⟨key, 0, []⟩ := by
  have hkeys : mapKeysWF (build_key_to_ids records altLines) := by
    refine finalize_postings_keys (merge_altnames_keys altLines _ _
      (seed_names_keys records [] ?_))
    intro p hp
    cases hp
  have hfstkeys : ∀ q ∈ (build_db_model records altLines).fstMap, q.1 ≠ ([] : List Char) := by
    intro q hq
    simp only [build_db_model, write_db] at hq
    obtain ⟨p, hp, hqp⟩ := build_fst_go_keys _ _ q hq
    have hp' : p ∈ build_key_to_ids records altLines := (List.mem_insertionSort _).1 hp
    rw [hqp]
    exact hkeys p hp'
  have hnone : fst_get (build_db_model records altLines).fstMap [] = none :=
    fst_get_none hfstkeys
  simp only [query_exact, hkey]
  rw [show toLowerStr ([] : List Char) = [] from rfl, hnone]

/-- Witness for `query_empty_key_result`: a one-record database queried with
the whitespace-only key `" "`. -/
theorem query_empty_key_result_witness :
    trimStr [' '] = [] ∧
      query_exact (build_db_model [⟨5, ['a'], [], [], [], [], 0, 0, 63, [], 10⟩] []) [' '] 0 =
        .ok ⟨[' '], 0, []⟩ :=
  ⟨by decide, query_empty_key_result [⟨5, ['a'], [], [], [], [], 0, 0, 63, [], 10⟩] [] [' '] 0
    (by decide)⟩

/-- Two same-named records for the witness database. -/
def recA : GeoRecord := ⟨5, ['a'], [], [], [], [], 0, 0, 63, [], 10⟩

/-- Second witness record. -/
def recB : GeoRecord := ⟨9, ['a'], [], [], [], [], 0, 0, 63, [], 20⟩

/-- Witness for `query_limit_behavior`: a fully built two-record database,
key `"a"` with posting list `[5, 9]`, queried with `limit = 1`; the whole
pipeline (FST lookup, postings decode, truncation, binary search, record
decode) is evaluated by the kernel. -/
theorem query_limit_behavior_witness :
    fst_get (build_db_model [recA, recB] []).fstMap (toLowerStr (trimStr ['a'])) = some 0 ∧
    read_postings (build_db_model [recA, recB] []) 0 = .ok [5, 9] ∧
    (0 < 1 → 1 < [5, 9].length →
      query_exact (build_db_model [recA, recB] []) ['a'] 1 =
        query_result_for (build_db_model [recA, recB] []) ['a'] ([5, 9].take 1) ∧
        ([5, 9].take 1).length = 1) :=
  ⟨by decide, by decide,
    (query_limit_behavior (build_db_model [recA, recB] []) ['a'] 1 0 [5, 9]
      (by decide) (by decide)).2.2⟩

end NewsGlobe
